import Mathlib

/-!
Verification of the PSLQ integer-relation detector of
include/boost/multiprecision/pslq.hpp.

The C++ function is a template over a real type parameter providing
arithmetic, sqrt, round, pow, numeric_limits::epsilon() and the
ULP-distance helper boost::math::float_distance.  We embed it shallowly:
the template parameter becomes a linear ordered field K together with a
record RealOps holding the numeric primitives the code calls.  Vectors
and matrices become functions out of ℕ (every access the code makes is
in bounds, so values at out-of-range indices are irrelevant), the
int64_t bookkeeping matrices A and B become ℤ-valued functions whose
updates go through wrap64, the two's-complement wrap of the unchecked
64-bit arithmetic the code executes (Aupdate and Bupdate keep the
exact-arithmetic idealization for comparison),
and the writes to std::cout and std::cerr become lists of Msg tags
returned alongside the result (a tag carries a numeric payload only
where the payload matters, namely the recommended norm bound printed by
the precision guard).  The unbounded while loop receives explicit fuel.
The text printed for expected_iterations (line 277) is abstracted to
the tag Msg.expectedIter: the printed number feeds no control flow and
no claim refers to its value.
-/

set_option maxRecDepth 40000

namespace PslqModel

/-- Numeric primitives the C++ template obtains from its real type:
sqrt, round (already converted to an integer, as the code does via
static_cast to int64_t), numeric_limits epsilon, pow with a real
exponent (used once, at exponent 15/16), and the 2-ULP closeness test
of line 306, abs(float_distance(a,b)) <= 2, which depends on the
floating-point representation and is therefore kept abstract. -/
structure RealOps (K : Type) where
  sqrt : K → K
  rnd : K → ℤ
  eps : K
  powr : K → K → K
  ulpClose : K → K → Bool

/-- Tags for the messages the function prints to std::cerr and
std::cout.  The tag Msg.precision carries the reported maximum
permissible norm bound of line 253. -/
inductive Msg (K : Type) where
  | notSorted
  | gammaRange
  | tauRange
  | tooShort
  | zeroEntry
  | negEntry
  | precision (bound : K)
  | expectedIter
  | lemmaTwo
  | ySmall (i : ℕ)
  | yClose (i : ℕ)
  | lemmaThree
  | pivotHigh
  | pivotLow
  | largeResidual
  | normBoundMsg
  | normDecreased
  | endline
  deriving DecidableEq

/-- The mutable state of the iteration: the argument vector x (taken by
non-const reference in the C++ signature), y, H, and the integer
ledger matrices A and B. -/
structure PState (K : Type) where
  x : ℕ → K
  y : ℕ → K
  H : ℕ → ℕ → K
  A : ℕ → ℕ → ℤ
  B : ℕ → ℕ → ℤ

/-- The observable outcome of a call: the returned vector of pairs, the
messages written to std::cout and std::cerr, and the final contents of
the argument vector x. -/
structure POut (K : Type) where
  relation : List (ℤ × K)
  cout : List (Msg K)
  cerr : List (Msg K)
  xfin : List K
  deriving DecidableEq

variable {K : Type} [LinearOrderedField K]

/-- The check std::is_sorted of line 209: adjacent pairs non-decreasing. -/
def is_sorted : List K → Bool
  | [] => true
  | [_] => true
  | a :: b :: r => decide (a ≤ b) && is_sorted (b :: r)

/-- The element scan of lines 230 to 239: the first zero or negative
entry produces the corresponding diagnostic. -/
def scanZeroNeg : List K → Option (Msg K)
  | [] => none
  | t :: r =>
    if t = 0 then some Msg.zeroEntry
    else if t < 0 then some Msg.negEntry
    else scanZeroNeg r

/-- Suffix sums of squares, lines 242 to 247, with the loop trip count
n - i made an explicit structural argument: the last entry is
x[n-1] * x[n-1] and s_sq[i] = s_sq[i+1] + x[i] * x[i] going down. -/
def s_sqAux (x : ℕ → K) (n : ℕ) : ℕ → ℕ → K
  | 0, i => x i * x i
  | d + 1, i => if i + 1 < n then s_sqAux x n d (i + 1) + x i * x i else x i * x i

/-- The suffix sum s_sq[i] of lines 242 to 247. -/
def s_sq (x : ℕ → K) (n : ℕ) (i : ℕ) : K := s_sqAux x n (n - i) i

/-- The matrix H as built by lines 256 to 273: rows 0 to n-2 by the
triple case split, then the last row by the same formula as the
below-diagonal case. -/
def Hinit (ops : RealOps K) (x : ℕ → K) (n : ℕ) : ℕ → ℕ → K := fun i j =>
  if i < n - 1 then
    if i < j then 0
    else if i = j then ops.sqrt (s_sq x n (i + 1) / s_sq x n i)
    else -x i * x j / ops.sqrt (s_sq x n j * s_sq x n (j + 1))
  else -x (n - 1) * x j / ops.sqrt (s_sq x n j * s_sq x n (j + 1))

/-- Lines 292 to 295: y[i] = x[i] / sqrt(s_sq[0]). -/
def yinit (ops : RealOps K) (x : ℕ → K) (n : ℕ) : ℕ → K := fun i =>
  x i / ops.sqrt (s_sq x n 0)

/-- Two's-complement wrap-around of a 64-bit signed integer: the value
an int64_t entry of A or B actually stores when the exact result leaves
the representable range.  Signed overflow is undefined behaviour in
C++; wrap-around is what the unchecked updates of lines 433 to 436
produce on the usual platforms. -/
def wrap64 (z : ℤ) : ℤ := (z + 2 ^ 63) % 2 ^ 64 - 2 ^ 63

/-- Row operation on A in exact integer arithmetic: row i minus t times
row j.  This is the idealization of lines 340 and 434 that the spec's
IntegerLedger describes (arbitrary-precision entries); the code itself
executes Aupdate64 below, which agrees with it whenever no entry
overflows. -/
def Aupdate (A : ℕ → ℕ → ℤ) (i j : ℕ) (t : ℤ) : ℕ → ℕ → ℤ := fun p q =>
  if p = i then A p q - t * A j q else A p q

/-- Column operation on B in exact integer arithmetic: column j plus t
times column i, the idealization of lines 341 and 435; the code itself
executes Bupdate64 below. -/
def Bupdate (B : ℕ → ℕ → ℤ) (i j : ℕ) (t : ℤ) : ℕ → ℕ → ℤ := fun p q =>
  if q = j then B p q + t * B p i else B p q

/-- Lines 340 and 434 at machine width: the row operation on A with
unchecked int64_t wrap-around. -/
def Aupdate64 (A : ℕ → ℕ → ℤ) (i j : ℕ) (t : ℤ) : ℕ → ℕ → ℤ := fun p q =>
  if p = i then wrap64 (A p q - t * A j q) else A p q

/-- Lines 341 and 435 at machine width: the column operation on B with
unchecked int64_t wrap-around. -/
def Bupdate64 (B : ℕ → ℕ → ℤ) (i j : ℕ) (t : ℤ) : ℕ → ℕ → ℤ := fun p q =>
  if q = j then wrap64 (B p q + t * B p i) else B p q

/-- Row swap of rows m and m+1 of A, line 390. -/
def Aswap (A : ℕ → ℕ → ℤ) (m : ℕ) : ℕ → ℕ → ℤ := fun p q =>
  if p = m then A (m + 1) q else if p = m + 1 then A m q else A p q

/-- Column swap of columns m and m+1 of B, line 393. -/
def Bswap (B : ℕ → ℕ → ℤ) (m : ℕ) : ℕ → ℕ → ℤ := fun p q =>
  if q = m then B p (m + 1) else if q = m + 1 then B p m else B p q

/-- One Hermite reduction step, lines 327 to 343 and 420 to 436: with
t = round(H(i,j)/H(j,j)), update H on row i at columns 0 to j, the
int64_t ledger matrices A and B at machine width, and y[j], all driven
by the same t; skip when t = 0.  Each C++ statement reads only slots
not yet overwritten, so the simultaneous update below matches the
sequential one. -/
def reduceStep (ops : RealOps K) (i j : ℕ) (s : PState K) : PState K :=
  let t : ℤ := ops.rnd (s.H i j / s.H j j)
  if t = 0 then s else
  { s with
    H := fun p q => if p = i ∧ q ≤ j then s.H p q - (t : K) * s.H j q else s.H p q
    y := fun p => if p = j then s.y j + (t : K) * s.y i else s.y p
    A := Aupdate64 s.A i j t
    B := Bupdate64 s.B i j t }

/-- The initial full reduction, lines 325 to 345: i from 1 to n-1, j
from i-1 down to 0. -/
def initReduce (ops : RealOps K) (n : ℕ) (s : PState K) : PState K :=
  (List.range n).foldl
    (fun s i => ((List.range i).reverse).foldl (fun s j => reduceStep ops i j s) s) s

/-- The in-loop partial reduction, lines 418 to 438: i from m+1 to n-1,
j from min(i-1, m+1) down to 0. -/
def roundReduce (ops : RealOps K) (n m : ℕ) (s : PState K) : PState K :=
  ((List.range n).drop (m + 1)).foldl
    (fun s i =>
      ((List.range (min (i - 1) (m + 1) + 1)).reverse).foldl
        (fun s j => reduceStep ops i j s) s) s

/-- Step 2 of a round, lines 388 to 393: swap y[m] with y[m+1], rows m
and m+1 of A and of H, and columns m and m+1 of B. -/
def swapStep (m : ℕ) (s : PState K) : PState K :=
  { s with
    y := fun p => if p = m then s.y (m + 1) else if p = m + 1 then s.y m else s.y p
    H := fun p q => if p = m then s.H (m + 1) q else if p = m + 1 then s.H m q else s.H p q
    A := Aswap s.A m
    B := Bswap s.B m }

/-- Corner removal, lines 399 to 408: the 2 by 2 rotation applied to
columns m and m+1 of H on rows m to n-1; t3 and t4 are saved before
writing, so the update is simultaneous. -/
def cornerRemove (ops : RealOps K) (n m : ℕ) (s : PState K) : PState K :=
  let t0 := ops.sqrt (s.H m m * s.H m m + s.H m (m + 1) * s.H m (m + 1))
  let t1 := s.H m m / t0
  let t2 := s.H m (m + 1) / t0
  { s with
    H := fun p q =>
      if m ≤ p ∧ p < n ∧ q = m then t1 * s.H p m + t2 * s.H p (m + 1)
      else if m ≤ p ∧ p < n ∧ q = m + 1 then -t2 * s.H p m + t1 * s.H p (m + 1)
      else s.H p q }

/-- Line 398: the rotation runs exactly when m < n - 2 in int64_t
arithmetic. -/
def cornerStage (ops : RealOps K) (n m : ℕ) (s : PState K) : PState K :=
  if (m : ℤ) < (n : ℤ) - 2 then cornerRemove ops n m s else s

/-- The pivot scan of lines 368 to 378: gammai starts at gamma and is
multiplied by gamma after each index, m starts at -1 and moves to i
whenever gammai * abs(H(i,i)) strictly exceeds the running maximum. -/
def pivotAux (γ : K) (H : ℕ → ℕ → K) : ℕ → ℕ → K → K → ℤ → ℤ
  | 0, _, _, _, m => m
  | fuel + 1, i, gammai, maxTerm, m =>
    if maxTerm < gammai * |H i i| then
      pivotAux γ H fuel (i + 1) (gammai * γ) (gammai * |H i i|) (i : ℤ)
    else pivotAux γ H fuel (i + 1) (gammai * γ) maxTerm m

/-- Pivot selection over i from 0 to n-2. -/
def selectPivot (γ : K) (n : ℕ) (H : ℕ → ℕ → K) : ℤ :=
  pivotAux γ H (n - 1) 0 γ 0 (-1)

/-- Linear scan for the first index i with base ≤ i < base + fuel and
p i = true; the shared shape of the checks at lines 298, 304, 313
and 442. -/
def scanIdx (p : ℕ → Bool) : ℕ → ℕ → Option ℕ
  | 0, _ => none
  | fuel + 1, i => if p i then some i else scanIdx p fuel (i + 1)

/-- The relation test, lines 442 to 470: scan i from 0 to n-1 for
abs(y[i]) < eps^(15/16); for the first hit take column i of B, compute
the residual and the absolute sum against x, flag a large residual when
the residual exceeds 16 * eps * absum, and collect the pairs
(B(j,i), x[j]) with nonzero integer component.  The summation loop of
lines 449 to 452 is written as a Finset sum. -/
def checkRelation (ops : RealOps K) (n : ℕ) (s : PState K) :
    Option (List (ℤ × K) × Bool) :=
  match scanIdx (fun i => decide (|s.y i| < ops.powr ops.eps (15 / 16))) n 0 with
  | none => none
  | some i =>
    let residual := ∑ j in Finset.range n, (s.B j i : K) * s.x j
    let absum := ∑ j in Finset.range n, |(s.B j i : K) * s.x j|
    let warn := decide (16 * ops.eps * absum < |residual|)
    let rel := (List.range n).filterMap fun j =>
      if s.B j i ≠ 0 then some (s.B j i, s.x j) else none
    some (rel, warn)

/-- Lines 353 to 359 and 474 to 480: the running maximum of
abs(H(i,i)) over i < n-1, starting from 0. -/
def maxCoeff (n : ℕ) (H : ℕ → ℕ → K) : K :=
  (List.range (n - 1)).foldl (fun mc i => if mc < |H i i| then |H i i| else mc) 0

/-- The reachable norm bound 1 / max_coeff. -/
def normBound (n : ℕ) (H : ℕ → ℕ → K) : K := 1 / maxCoeff n H

/-- Outcome of one pass through the loop body. -/
inductive RoundResult (K : Type) where
  | pivotFail (high : Bool)
  | found (s : PState K) (rel : List (ℤ × K)) (warn : Bool)
  | next (s : PState K)

/-- One iteration of the while loop, lines 364 to 471 up to the
relation test: pivot selection with its two failure guards (m = n-1
checked first, then m < 0, as in lines 380 to 387), the swap, the
conditional corner removal, the partial reduction, the relation test. -/
def roundStep (ops : RealOps K) (n : ℕ) (γ : K) (s : PState K) : RoundResult K :=
  let m := selectPivot γ n s.H
  if m = (n : ℤ) - 1 then RoundResult.pivotFail true
  else if m < 0 then RoundResult.pivotFail false
  else
    let m2 := m.toNat
    let s1 := swapStep m2 s
    let s2 := cornerStage ops n m2 s1
    let s3 := roundReduce ops n m2 s2
    match checkRelation ops n s3 with
    | some (rel, warn) => RoundResult.found s3 rel warn
    | none => RoundResult.next s3

/-- The contents of the argument vector as observable after the call. -/
def xlist (n : ℕ) (s : PState K) : List K := (List.range n).map s.x

/-- The while loop, lines 364 to 494, with explicit fuel: the loop
guard norm_bound < max_acceptable_norm_bound, one roundStep, then the
norm-bound recomputation, the progress print of line 487 and the
decrease warning of lines 488 to 490.  A successful relation prints the
large-residual warning to cerr when flagged (lines 454 to 459) and the
endline of line 468, and returns the relation either way. -/
def pslqLoop (ops : RealOps K) (n : ℕ) (γ mn : K) : ℕ → K → PState K → POut K
  | 0, _, s => ⟨[], [], [], xlist n s⟩
  | fuel + 1, nb, s =>
    if nb < mn then
      match roundStep ops n γ s with
      | RoundResult.pivotFail true => ⟨[], [], [Msg.pivotHigh], xlist n s⟩
      | RoundResult.pivotFail false => ⟨[], [], [Msg.pivotLow], xlist n s⟩
      | RoundResult.found s3 rel warn =>
          ⟨rel, [Msg.endline], if warn then [Msg.largeResidual] else [], xlist n s3⟩
      | RoundResult.next s3 =>
          let nb2 := normBound n s3.H
          let r := pslqLoop ops n γ mn fuel nb2 s3
          ⟨r.relation, Msg.normBoundMsg :: r.cout,
            (if nb2 < nb then [Msg.normDecreased] else []) ++ r.cerr, r.xfin⟩
    else ⟨[], [Msg.endline], [], xlist n s⟩

/-- The identity matrix of line 323 and line 324. -/
def idZ : ℕ → ℕ → ℤ := fun p q => if p = q then 1 else 0

/-- The whole pslq template, lines 207 to 497.  The returned record
carries the function result, the std::cout and std::cerr messages, and
the final contents of the argument vector x. -/
def pslq (ops : RealOps K) (x : List K) (mn γ : K) (fuel : ℕ) : POut K :=
  if is_sorted x = false then ⟨[], [], [Msg.notSorted], x⟩
  else if γ ≤ 2 / ops.sqrt 3 then ⟨[], [], [Msg.gammaRange], x⟩
  else if 1 / ops.sqrt (1 / 4 + 1 / (γ * γ)) ≤ 1 ∨
      2 ≤ 1 / ops.sqrt (1 / 4 + 1 / (γ * γ)) then ⟨[], [], [Msg.tauRange], x⟩
  else if x.length < 2 then ⟨[], [], [Msg.tooShort], x⟩
  else
    match scanZeroNeg x with
    | some msg => ⟨[], [], [msg], x⟩
    | none =>
      let n := x.length
      let xf : ℕ → K := fun i => x.getD i 0
      if 1 / ops.eps < mn * mn * s_sq xf n 0 then
        ⟨[], [], [Msg.precision (1 / ops.sqrt (s_sq xf n 0 * ops.eps))], x⟩
      else
        let H := Hinit ops xf n
        if ops.sqrt ops.eps <
            |(∑ i in Finset.range n, ∑ j in Finset.range (n - 1), H i j * H i j) /
              ((n : K) - 1) - 1| then
          ⟨[], [Msg.expectedIter], [Msg.lemmaTwo], x⟩
        else
          let y := yinit ops xf n
          match scanIdx (fun i => decide (|y i| < ops.eps)) n 0 with
          | some i => ⟨[], [Msg.expectedIter], [Msg.ySmall i], x⟩
          | none =>
            match scanIdx (fun i => ops.ulpClose (y i) (y (i - 1))) (n - 1) 1 with
            | some i => ⟨[], [Msg.expectedIter], [Msg.yClose i], x⟩
            | none =>
              match scanIdx
                  (fun i => decide (ops.sqrt ops.eps <
                    |∑ j in Finset.range n, y j * H j i| / ((n : K) - 1))) (n - 1) 0 with
              | some _ => ⟨[], [Msg.expectedIter], [Msg.lemmaThree], x⟩
              | none =>
                let s1 := initReduce ops n ⟨xf, y, H, idZ, idZ⟩
                let r := pslqLoop ops n γ mn fuel (normBound n s1.H) s1
                ⟨r.relation, Msg.expectedIter :: r.cout, r.cerr, r.xfin⟩

/-- The suffix sum written as the spec writes it. -/
def sSpec (x : ℕ → K) (n i : ℕ) : K := ∑ k in Finset.Ico i n, x k * x k

/-- The formula the spec gives for H: zero above the diagonal, the
square root of the suffix-sum ratio on it, the product formula below
it, with no special case for the last row. -/
def Hspec (ops : RealOps K) (x : ℕ → K) (n : ℕ) (i j : ℕ) : K :=
  if i < j then 0
  else if i = j then ops.sqrt (sSpec x n (i + 1) / sSpec x n i)
  else -x i * x j / ops.sqrt (sSpec x n j * sSpec x n (j + 1))

/-- Sorted strictly increasing, the property the spec asks of the input. -/
def strictlyIncreasing (l : List K) : Prop := l.Chain' (· < ·)

/-- Entry (p,q) of the product of the two ledger matrices, truncated to
size n. -/
def ABprod (n : ℕ) (A B : ℕ → ℕ → ℤ) (p q : ℕ) : ℤ :=
  ∑ k in Finset.range n, A p k * B k q

/-- The states the ledger can reach in exact integer arithmetic: both
matrices are the identity at initialization (lines 323 and 324); every
later change is either the paired reduction update of lines 340 and
341 or lines 434 and 435 taken without overflow (always with j < i,
hence i different from j, and both indices below n) or the paired swap
of lines 390 and 393 (with m + 1 < n). -/
inductive LedgerReach (n : ℕ) : (ℕ → ℕ → ℤ) → (ℕ → ℕ → ℤ) → Prop where
  | init : LedgerReach n idZ idZ
  | reduce (A B : ℕ → ℕ → ℤ) (i j : ℕ) (t : ℤ) (hi : i < n) (hj : j < n)
      (hne : i ≠ j) (h : LedgerReach n A B) :
      LedgerReach n (Aupdate A i j t) (Bupdate B i j t)
  | swap (A B : ℕ → ℕ → ℤ) (m : ℕ) (hm : m + 1 < n) (h : LedgerReach n A B) :
      LedgerReach n (Aswap A m) (Bswap B m)

/-- The states the ledger can reach at the width the code executes: the
same operations, with the reduction updates taken through the wrapping
Aupdate64 and Bupdate64 used by reduceStep. -/
inductive LedgerReach64 (n : ℕ) : (ℕ → ℕ → ℤ) → (ℕ → ℕ → ℤ) → Prop where
  | init : LedgerReach64 n idZ idZ
  | reduce (A B : ℕ → ℕ → ℤ) (i j : ℕ) (t : ℤ) (hi : i < n) (hj : j < n)
      (hne : i ≠ j) (h : LedgerReach64 n A B) :
      LedgerReach64 n (Aupdate64 A i j t) (Bupdate64 B i j t)
  | swap (A B : ℕ → ℕ → ℤ) (m : ℕ) (hm : m + 1 < n) (h : LedgerReach64 n A B) :
      LedgerReach64 n (Aswap A m) (Bswap B m)

/-- Integer square root by upward scan, structurally recursive so that
concrete runs evaluate inside the kernel. -/
def isqrtAux (n : ℕ) : ℕ → ℕ → ℕ
  | 0, acc => acc
  | f + 1, acc => if (acc + 1) * (acc + 1) ≤ n then isqrtAux n f (acc + 1) else acc

/-- Largest k with k * k ≤ n. -/
def isqrt (n : ℕ) : ℕ := isqrtAux n n 0

/-- Exact rational square root on the perfect squares our concrete runs
produce: a concrete choice for the template's sqrt primitive. -/
def ratSqrt (q : ℚ) : ℚ := (isqrt q.num.toNat : ℚ) / (isqrt q.den : ℚ)

/-- A concrete instantiation of the numeric primitives at K = ℚ with
epsilon 1/65536. -/
def opsQ : RealOps ℚ :=
  ⟨ratSqrt, fun q => round q, 1 / 65536, fun a _ => a, fun a b => decide (a = b)⟩

/-- The same primitives with epsilon 1/25. -/
def opsQ25 : RealOps ℚ :=
  ⟨ratSqrt, fun q => round q, 1 / 25, fun a _ => a, fun a b => decide (a = b)⟩

/-- The same primitives with epsilon 1/100. -/
def opsQ100 : RealOps ℚ :=
  ⟨ratSqrt, fun q => round q, 1 / 100, fun a _ => a, fun a b => decide (a = b)⟩

/-- Concrete 2 by 2 diagonal data for the pivot witness. -/
def Hw5 : ℕ → ℕ → ℚ := fun i j => if i = 0 ∧ j = 0 then 1 else 0

/-- Concrete state for the relation-test witness. -/
def stW3 {K : Type} [LinearOrderedField K] : PState K :=
  ⟨fun _ => 1, fun _ => 0, fun _ _ => 0, idZ, idZ⟩

/-- Concrete 3 by 2 matrix for the corner-removal witness. -/
def Hw6 {K : Type} [LinearOrderedField K] : ℕ → ℕ → K := fun i j =>
  if i = 0 ∧ j = 0 then 3 else if i = 0 ∧ j = 1 then 4 else 0

/-- Concrete state for the corner-removal witness. -/
def stW6 {K : Type} [LinearOrderedField K] : PState K :=
  ⟨fun _ => 0, fun _ => 0, Hw6, idZ, idZ⟩

/-- Concrete state for the return-channel witness. -/
def stW7 {K : Type} [LinearOrderedField K] : PState K :=
  ⟨fun _ => 1, fun _ => 1, fun _ _ => 1, idZ, idZ⟩

/- The core rational arithmetic operations are marked irreducible, which
blocks the evaluation of concrete runs inside decide; restore the
ordinary reducibility for the remainder of this development. -/
set_option allowUnsafeReducibility true in
attribute [semireducible] Rat.mul Rat.inv Rat.add Rat.sub

/-! Helper lemmas. -/

theorem scanIdx_eq_none (p : ℕ → Bool) :
    ∀ (fuel i : ℕ), (scanIdx p fuel i = none ↔ ∀ k, i ≤ k → k < i + fuel → p k = false) := by
  intro fuel
  induction fuel with
  | zero =>
    intro i
    constructor
    · intro _ k h1 h2; omega
    · intro _; rfl
  | succ f ih =>
    intro i
    rw [scanIdx]
    by_cases h : p i = true
    · rw [if_pos h]
      constructor
      · intro hc; cases hc
      · intro hr
        have hk := hr i le_rfl (by omega)
        rw [h] at hk; cases hk
    · rw [if_neg h]
      rw [ih (i + 1)]
      constructor
      · intro hr k hk1 hk2
        rcases eq_or_lt_of_le hk1 with rfl | hk
        · simpa using h
        · exact hr k (by omega) (by omega)
      · intro hr k hk1 hk2
        exact hr k (by omega) (by omega)

theorem scanIdx_eq_some (p : ℕ → Bool) :
    ∀ (fuel i j : ℕ), (scanIdx p fuel i = some j ↔
      i ≤ j ∧ j < i + fuel ∧ p j = true ∧ ∀ k, i ≤ k → k < j → p k = false) := by
  intro fuel
  induction fuel with
  | zero =>
    intro i j
    constructor
    · intro hc; cases hc
    · rintro ⟨h1, h2, -⟩; omega
  | succ f ih =>
    intro i j
    rw [scanIdx]
    by_cases h : p i = true
    · rw [if_pos h]
      constructor
      · intro h2
        injection h2 with h2
        subst h2
        exact ⟨le_rfl, by omega, h, fun k hk1 hk2 => absurd hk1 (by omega)⟩
      · rintro ⟨h1, h2, h3, h4⟩
        rcases eq_or_lt_of_le h1 with rfl | hlt
        · rfl
        · have hk := h4 i le_rfl hlt
          rw [h] at hk; cases hk
    · rw [if_neg h]
      rw [ih (i + 1) j]
      constructor
      · rintro ⟨h1, h2, h3, h4⟩
        refine ⟨by omega, by omega, h3, fun k hk1 hk2 => ?_⟩
        rcases eq_or_lt_of_le hk1 with rfl | hk
        · simpa using h
        · exact h4 k (by omega) hk2
      · rintro ⟨h1, h2, h3, h4⟩
        have hij : i ≠ j := by
          rintro rfl
          exact h h3
        exact ⟨by omega, by omega, h3, fun k hk1 hk2 => h4 k (by omega) hk2⟩

theorem scanZeroNeg_eq_none :
    ∀ l : List K, scanZeroNeg l = none → ∀ t ∈ l, ¬ t = 0 ∧ ¬ t < 0 := by
  intro l
  induction l with
  | nil => intro _ t ht; cases ht
  | cons a r ih =>
    intro h t ht
    rw [scanZeroNeg] at h
    by_cases h0 : a = 0
    · rw [if_pos h0] at h; cases h
    · rw [if_neg h0] at h
      by_cases hneg : a < 0
      · rw [if_pos hneg] at h; cases h
      · rw [if_neg hneg] at h
        rcases List.mem_cons.mp ht with rfl | ht2
        · exact ⟨h0, hneg⟩
        · exact ih h t ht2

theorem range_map_getD {α : Type} (l : List α) (d : α) :
    (List.range l.length).map (fun i => l.getD i d) = l := by
  apply List.ext_getElem
  · simp
  · intro i h1 h2
    simp [List.getD_eq_getElem?_getD, List.getElem?_eq_getElem h2]

/-! Claim C1: the ledger invariant A * B = I. -/

theorem ABprod_idZ (n p q : ℕ) (hp : p < n) : ABprod n idZ idZ p q = idZ p q := by
  unfold ABprod idZ
  rcases eq_or_ne p q with rfl | hpq
  · rw [Finset.sum_eq_single p (fun k _ hkp => by simp [(Ne.symm hkp : p ≠ k)])
      (fun hnp => absurd (Finset.mem_range.mpr hp) hnp)]
    simp
  · rw [if_neg hpq]
    refine Finset.sum_eq_zero fun k _ => ?_
    by_cases hpk : p = k
    · subst hpk
      simp [hpq]
    · simp [hpk]

/-- Exact algebraic effect of one paired reduction update on the
product of the ledger matrices, with no hypotheses. -/
theorem ABprod_update (n : ℕ) (A B : ℕ → ℕ → ℤ) (i j : ℕ) (t : ℤ) (p q : ℕ) :
    ABprod n (Aupdate A i j t) (Bupdate B i j t) p q =
      ABprod n A B p q + (if q = j then t * ABprod n A B p i else 0)
        - (if p = i then t * ABprod n A B j q else 0)
        - (if p = i then (if q = j then t * t * ABprod n A B j i else 0) else 0) := by
  have hAs : ∀ k, Aupdate A i j t i k = A i k - t * A j k := fun k => by
    simp [Aupdate]
  have hAo : ∀ p' k, p' ≠ i → Aupdate A i j t p' k = A p' k := fun p' k hp' => by
    simp [Aupdate, hp']
  have hBs : ∀ k, Bupdate B i j t k j = B k j + t * B k i := fun k => by
    simp [Bupdate]
  have hBo : ∀ k q', q' ≠ j → Bupdate B i j t k q' = B k q' := fun k q' hq' => by
    simp [Bupdate, hq']
  by_cases hp1 : p = i
  · by_cases hq1 : q = j
    · have e1 : ABprod n (Aupdate A i j t) (Bupdate B i j t) p q =
          ∑ k in Finset.range n, (A i k - t * A j k) * (B k j + t * B k i) :=
        Finset.sum_congr rfl fun k _ => by rw [hp1, hq1, hAs k, hBs k]
      have e2 : (∑ k in Finset.range n, (A i k - t * A j k) * (B k j + t * B k i)) =
          ABprod n A B i j + t * ABprod n A B i i - t * ABprod n A B j j -
            t * t * ABprod n A B j i := by
        simp only [ABprod, Finset.mul_sum, ← Finset.sum_add_distrib,
          ← Finset.sum_sub_distrib]
        exact Finset.sum_congr rfl fun k _ => by ring
      rw [e1, e2, if_pos hq1, if_pos hp1, if_pos hp1, if_pos hq1, hp1, hq1]
    · have e1 : ABprod n (Aupdate A i j t) (Bupdate B i j t) p q =
          ∑ k in Finset.range n, (A i k - t * A j k) * B k q :=
        Finset.sum_congr rfl fun k _ => by rw [hp1, hAs k, hBo k q hq1]
      have e2 : (∑ k in Finset.range n, (A i k - t * A j k) * B k q) =
          ABprod n A B i q - t * ABprod n A B j q := by
        simp only [ABprod, Finset.mul_sum, ← Finset.sum_sub_distrib]
        exact Finset.sum_congr rfl fun k _ => by ring
      rw [e1, e2, if_neg hq1, if_pos hp1, if_pos hp1, if_neg hq1, hp1]
      ring
  · by_cases hq1 : q = j
    · have e1 : ABprod n (Aupdate A i j t) (Bupdate B i j t) p q =
          ∑ k in Finset.range n, A p k * (B k j + t * B k i) :=
        Finset.sum_congr rfl fun k _ => by rw [hq1, hAo p k hp1, hBs k]
      have e2 : (∑ k in Finset.range n, A p k * (B k j + t * B k i)) =
          ABprod n A B p j + t * ABprod n A B p i := by
        simp only [ABprod, Finset.mul_sum, ← Finset.sum_add_distrib]
        exact Finset.sum_congr rfl fun k _ => by ring
      rw [e1, e2, if_pos hq1, if_neg hp1, if_neg hp1, hq1]
      ring
    · have e1 : ABprod n (Aupdate A i j t) (Bupdate B i j t) p q =
          ∑ k in Finset.range n, A p k * B k q :=
        Finset.sum_congr rfl fun k _ => by rw [hAo p k hp1, hBo k q hq1]
      rw [e1, if_neg hq1, if_neg hp1, if_neg hp1]
      ring_nf
      rfl

/-- Exact effect of the paired swap on the ledger product: indices are
routed through the transposition of m and m + 1. -/
theorem ABprod_swap (n : ℕ) (A B : ℕ → ℕ → ℤ) (m p q : ℕ) :
    ABprod n (Aswap A m) (Bswap B m) p q =
      ABprod n A B (if p = m then m + 1 else if p = m + 1 then m else p)
        (if q = m then m + 1 else if q = m + 1 then m else q) := by
  unfold ABprod
  refine Finset.sum_congr rfl fun k _ => ?_
  unfold Aswap Bswap
  split_ifs <;> rfl

theorem idZ_swap (m p q : ℕ) :
    idZ (if p = m then m + 1 else if p = m + 1 then m else p)
      (if q = m then m + 1 else if q = m + 1 then m else q) = idZ p q := by
  unfold idZ
  split_ifs <;> omega

theorem idZ_combination (i j p q : ℕ) (t : ℤ) (hne : i ≠ j) :
    idZ p q + (if q = j then t * idZ p i else 0) - (if p = i then t * idZ j q else 0)
      - (if p = i then (if q = j then t * t * idZ j i else 0) else 0) = idZ p q := by
  by_cases hp1 : p = i
  · by_cases hq1 : q = j
    · rw [if_pos hq1, if_pos hp1, if_pos hp1, if_pos hq1, hp1, hq1]
      have d1 : idZ i i = 1 := by unfold idZ; rw [if_pos rfl]
      have d2 : idZ j j = 1 := by unfold idZ; rw [if_pos rfl]
      have d3 : idZ j i = 0 := by unfold idZ; rw [if_neg (Ne.symm hne)]
      rw [d1, d2, d3]
      ring
    · rw [if_neg hq1, if_pos hp1, if_pos hp1, if_neg hq1]
      have d3 : idZ j q = 0 := by
        unfold idZ
        rw [if_neg (fun h => hq1 h.symm)]
      rw [d3]
      ring
  · by_cases hq1 : q = j
    · rw [if_pos hq1, if_neg hp1, if_neg hp1]
      have d3 : idZ p i = 0 := by unfold idZ; rw [if_neg hp1]
      rw [d3]
      ring
    · rw [if_neg hq1, if_neg hp1, if_neg hp1]
      ring

/-- In exact integer arithmetic, every reachable ledger state satisfies
A * B = I. -/
theorem ledgerReach_prod {n : ℕ} {A B : ℕ → ℕ → ℤ} (h : LedgerReach n A B)
    (p q : ℕ) (hp : p < n) (hq : q < n) : ABprod n A B p q = idZ p q := by
  induction h generalizing p q with
  | init => exact ABprod_idZ n p q hp
  | reduce A B i j t hi hj hne _ ih =>
    rw [ABprod_update, ih p q hp hq]
    have e2 : (if q = j then t * ABprod n A B p i else 0) =
        (if q = j then t * idZ p i else 0) := by
      split_ifs
      · rw [ih p i hp hi]
      · rfl
    have e3 : (if p = i then t * ABprod n A B j q else 0) =
        (if p = i then t * idZ j q else 0) := by
      split_ifs
      · rw [ih j q hj hq]
      · rfl
    have e4 : (if p = i then (if q = j then t * t * ABprod n A B j i else 0) else 0) =
        (if p = i then (if q = j then t * t * idZ j i else 0) else 0) := by
      split_ifs
      · rw [ih j i hj hi]
      · rfl
      · rfl
    rw [e2, e3, e4]
    exact idZ_combination i j p q t hne
  | swap A B m hm _ ih =>
    rw [ABprod_swap]
    have hspn : (if p = m then m + 1 else if p = m + 1 then m else p) < n := by
      split_ifs <;> omega
    have hsqn : (if q = m then m + 1 else if q = m + 1 then m else q) < n := by
      split_ifs <;> omega
    rw [ih _ _ hspn hsqn]
    exact idZ_swap m p q

theorem wrap64_emod (z : ℤ) : wrap64 z % 2 ^ 64 = z % 2 ^ 64 := by
  unfold wrap64
  omega

theorem wrap64_lb (z : ℤ) : -(2 ^ 63) ≤ wrap64 z := by
  unfold wrap64
  omega

theorem wrap64_ub (z : ℤ) : wrap64 z < 2 ^ 63 := by
  unfold wrap64
  omega

theorem Aupdate64_modEq (A : ℕ → ℕ → ℤ) (i j : ℕ) (t : ℤ) (p k : ℕ) :
    Int.ModEq (2 ^ 64) (Aupdate64 A i j t p k) (Aupdate A i j t p k) := by
  unfold Aupdate64 Aupdate
  split_ifs
  · exact wrap64_emod _
  · rfl

theorem Bupdate64_modEq (B : ℕ → ℕ → ℤ) (i j : ℕ) (t : ℤ) (k q : ℕ) :
    Int.ModEq (2 ^ 64) (Bupdate64 B i j t k q) (Bupdate B i j t k q) := by
  unfold Bupdate64 Bupdate
  split_ifs
  · exact wrap64_emod _
  · rfl

theorem finsetSum_modEq {m : ℤ} {f g : ℕ → ℤ} (s : Finset ℕ)
    (h : ∀ k ∈ s, Int.ModEq m (f k) (g k)) :
    Int.ModEq m (∑ k in s, f k) (∑ k in s, g k) := by
  induction s using Finset.induction_on with
  | empty => rfl
  | insert hx ih =>
    rw [Finset.sum_insert hx, Finset.sum_insert hx]
    exact (h _ (Finset.mem_insert_self _ _)).add
      (ih fun k hk => h k (Finset.mem_insert_of_mem hk))

theorem ABprod_modEq {m : ℤ} {A A2 B B2 : ℕ → ℕ → ℤ} (n : ℕ)
    (hA : ∀ p k, Int.ModEq m (A p k) (A2 p k))
    (hB : ∀ k q, Int.ModEq m (B k q) (B2 k q)) (p q : ℕ) :
    Int.ModEq m (ABprod n A B p q) (ABprod n A2 B2 p q) :=
  finsetSum_modEq _ fun k _ => (hA p k).mul (hB k q)

/-- At the width the code executes, every reachable ledger state still
satisfies A * B = I modulo 2 ^ 64. -/
theorem ledgerReach64_prod {n : ℕ} {A B : ℕ → ℕ → ℤ} (h : LedgerReach64 n A B)
    (p q : ℕ) (hp : p < n) (hq : q < n) :
    Int.ModEq (2 ^ 64) (ABprod n A B p q) (idZ p q) := by
  induction h generalizing p q with
  | init => rw [ABprod_idZ n p q hp]
  | reduce A B i j t hi hj hne _ ih =>
    have step1 : Int.ModEq (2 ^ 64)
        (ABprod n (Aupdate64 A i j t) (Bupdate64 B i j t) p q)
        (ABprod n (Aupdate A i j t) (Bupdate B i j t) p q) :=
      ABprod_modEq n (fun p' k => Aupdate64_modEq A i j t p' k)
        (fun k q' => Bupdate64_modEq B i j t k q') p q
    refine step1.trans ?_
    rw [ABprod_update]
    have c1 := ih p q hp hq
    have c2 : Int.ModEq (2 ^ 64) (if q = j then t * ABprod n A B p i else 0)
        (if q = j then t * idZ p i else 0) := by
      split_ifs
      · exact (ih p i hp hi).mul_left t
      · rfl
    have c3 : Int.ModEq (2 ^ 64) (if p = i then t * ABprod n A B j q else 0)
        (if p = i then t * idZ j q else 0) := by
      split_ifs
      · exact (ih j q hj hq).mul_left t
      · rfl
    have c4 : Int.ModEq (2 ^ 64)
        (if p = i then (if q = j then t * t * ABprod n A B j i else 0) else 0)
        (if p = i then (if q = j then t * t * idZ j i else 0) else 0) := by
      split_ifs
      · exact (ih j i hj hi).mul_left (t * t)
      · rfl
      · rfl
    refine (((c1.add c2).sub c3).sub c4).trans ?_
    rw [idZ_combination i j p q t hne]
  | swap A B m hm _ ih =>
    rw [ABprod_swap]
    have hspn : (if p = m then m + 1 else if p = m + 1 then m else p) < n := by
      split_ifs <;> omega
    have hsqn : (if q = m then m + 1 else if q = m + 1 then m else q) < n := by
      split_ifs <;> omega
    refine (ih _ _ hspn hsqn).trans ?_
    rw [idZ_swap m p q]

/-- C1 counterexample: at the unchecked 64-bit width the code executes,
two reduction steps with t = 2 ^ 62 starting from the identity drive
B(1,0) from 0 to 2 ^ 62 and then wrap 2 ^ 63 to -(2 ^ 63), after which
the product A * B differs from the identity: entry (1,0) is -(2 ^ 64)
instead of 0, and the run continues.  Exact A * B = I therefore fails
on a reachable machine-width state. -/
theorem pslq_AB_identity_cex :
    LedgerReach64 2 (Aupdate64 (Aupdate64 idZ 1 0 (2 ^ 62)) 1 0 (2 ^ 62))
      (Bupdate64 (Bupdate64 idZ 1 0 (2 ^ 62)) 1 0 (2 ^ 62)) ∧
    ABprod 2 (Aupdate64 (Aupdate64 idZ 1 0 (2 ^ 62)) 1 0 (2 ^ 62))
      (Bupdate64 (Bupdate64 idZ 1 0 (2 ^ 62)) 1 0 (2 ^ 62)) 1 0 = -(2 ^ 64) ∧
    idZ 1 0 = 0 :=
  ⟨LedgerReach64.reduce _ _ 1 0 (2 ^ 62) (by omega) (by omega) (by omega)
      (LedgerReach64.reduce _ _ 1 0 (2 ^ 62) (by omega) (by omega) (by omega)
        LedgerReach64.init),
    by decide, by decide⟩

/-- C1 (amended): both ledgers start as the identity and evolve by the
paired reduction updates (one integer t on both sides) and the paired
swaps.  In exact integer arithmetic these operations maintain
A * B = I for every reachable state; at the unchecked 64-bit width the
code executes, every reachable state satisfies A * B = I modulo 2 ^ 64,
exact equality being lost only when an entry wraps. -/
theorem pslq_AB_identity (n : ℕ) :
    (∀ A B, LedgerReach n A B → ∀ p q, p < n → q < n →
      ABprod n A B p q = idZ p q) ∧
    (∀ A B, LedgerReach64 n A B → ∀ p q, p < n → q < n →
      ABprod n A B p q % 2 ^ 64 = idZ p q % 2 ^ 64) :=
  ⟨fun _ _ h p q hp hq => ledgerReach_prod h p q hp hq,
    fun _ _ h p q hp hq => ledgerReach64_prod h p q hp hq⟩

theorem pslq_AB_identity_witness :
    ABprod 2 (Aswap (Aupdate idZ 1 0 5) 0) (Bswap (Bupdate idZ 1 0 5) 0) 0 1 = idZ 0 1 ∧
    ABprod 2 (Aupdate64 idZ 1 0 5) (Bupdate64 idZ 1 0 5) 1 0 % 2 ^ 64 =
      idZ 1 0 % 2 ^ 64 ∧
    idZ 0 1 = 0 := by
  have h := pslq_AB_identity 2
  refine ⟨h.1 _ _ ?_ 0 1 (by omega) (by omega), h.2 _ _ ?_ 1 0 (by omega) (by omega),
    by decide⟩
  · exact LedgerReach.swap _ _ 0 (by omega)
      (LedgerReach.reduce _ _ 1 0 5 (by omega) (by omega) (by omega) LedgerReach.init)
  · exact LedgerReach64.reduce _ _ 1 0 5 (by omega) (by omega) (by omega)
      LedgerReach64.init

/-! Claim C9: integer overflow in the ledger. -/

/-- C9 counterexample: with an entry 2^62 in A, the unchecked update of
line 434 at t = 4 wraps to 0 instead of the exact value -(2^64), and no
error is signalled; the run simply continues with the wrapped entry. -/
theorem pslq_ledger_overflow_cex :
    Aupdate64 (fun p q => if p = 0 ∧ q = 0 then 2 ^ 62 else 0) 1 0 4 1 0 = 0 ∧
    (fun p q : ℕ => if p = 0 ∧ q = 0 then (2 : ℤ) ^ 62 else 0) 1 0 -
      4 * (fun p q : ℕ => if p = 0 ∧ q = 0 then (2 : ℤ) ^ 62 else 0) 0 0 = -(2 ^ 64) ∧
    Aupdate64 (fun p q => if p = 0 ∧ q = 0 then 2 ^ 62 else 0) 1 0 4 1 0 ≠
      (fun p q : ℕ => if p = 0 ∧ q = 0 then (2 : ℤ) ^ 62 else 0) 1 0 -
        4 * (fun p q : ℕ => if p = 0 ∧ q = 0 then (2 : ℤ) ^ 62 else 0) 0 0 := by
  refine ⟨?_, ?_, ?_⟩ <;> decide

/-- C9 amended: the ledger updates use fixed 64-bit arithmetic with no
overflow check: each updated entry is the exact value wrapped into
[-2^63, 2^63) modulo 2^64, and execution continues with the wrapped
entries; no overflow error path exists in the code. -/
theorem pslq_ledger_wraps (A B : ℕ → ℕ → ℤ) (i j : ℕ) (t : ℤ) (p q : ℕ) (z : ℤ) :
    Aupdate64 A i j t p q = (if p = i then wrap64 (A p q - t * A j q) else A p q) ∧
    Bupdate64 B i j t p q = (if q = j then wrap64 (B p q + t * B p i) else B p q) ∧
    wrap64 z % 2 ^ 64 = z % 2 ^ 64 ∧ -(2 ^ 63) ≤ wrap64 z ∧ wrap64 z < 2 ^ 63 := by
  refine ⟨rfl, rfl, ?_, ?_, ?_⟩ <;> (unfold wrap64; omega)

/-! Claim C2: the initial construction of s, y and H. -/

theorem s_sqAux_eq_sSpec (x : ℕ → K) (n : ℕ) :
    ∀ (d i : ℕ), i < n → n - i ≤ d → s_sqAux x n d i = sSpec x n i := by
  intro d
  induction d with
  | zero => intro i hi hd; omega
  | succ d ih =>
    intro i hi hd
    rw [s_sqAux]
    by_cases h : i + 1 < n
    · rw [if_pos h, ih (i + 1) h (by omega), sSpec, sSpec,
        Finset.sum_eq_sum_Ico_succ_bot hi]
      ring
    · rw [if_neg h]
      have hn : n = i + 1 := by omega
      subst hn
      have hsingle : Finset.Ico i (i + 1) = {i} := by
        ext k
        simp only [Finset.mem_Ico, Finset.mem_singleton]
        omega
      rw [sSpec, hsingle, Finset.sum_singleton]

theorem s_sq_eq_sSpec (x : ℕ → K) (n : ℕ) (i : ℕ) (hi : i < n) :
    s_sq x n i = sSpec x n i :=
  s_sqAux_eq_sSpec x n (n - i) i hi le_rfl

/-- C2: the state built before the iteration comes from the suffix sums
exactly as the spec says: s_sq agrees with the suffix sums of squares,
y is x normalised by the square root of the full sum, and H agrees
everywhere in range with the spec formula, the last row included. -/
theorem pslq_initial_construction (ops : RealOps K) (x : ℕ → K) (n : ℕ) (hn : 2 ≤ n) :
    (∀ i, i < n → s_sq x n i = ∑ k in Finset.Ico i n, x k * x k) ∧
    (∀ i, i < n → yinit ops x n i = x i / ops.sqrt (∑ k in Finset.Ico 0 n, x k * x k)) ∧
    (∀ i j, i < n → j < n - 1 → Hinit ops x n i j = Hspec ops x n i j) := by
  refine ⟨fun i hi => s_sq_eq_sSpec x n i hi, fun i _ => ?_, fun i j hi hj => ?_⟩
  · rw [yinit, s_sq_eq_sSpec x n 0 (by omega)]
    rfl
  · rw [Hinit, Hspec]
    by_cases hlast : i < n - 1
    · rw [if_pos hlast]
      by_cases h1 : i < j
      · rw [if_pos h1, if_pos h1]
      · rw [if_neg h1, if_neg h1]
        by_cases h2 : i = j
        · rw [if_pos h2, if_pos h2, s_sq_eq_sSpec x n (i + 1) (by omega),
            s_sq_eq_sSpec x n i (by omega)]
        · rw [if_neg h2, if_neg h2, s_sq_eq_sSpec x n j (by omega),
            s_sq_eq_sSpec x n (j + 1) (by omega)]
    · rw [if_neg hlast]
      have hieq : i = n - 1 := by omega
      have h1 : ¬ i < j := by omega
      have h2 : i ≠ j := by omega
      rw [if_neg h1, if_neg h2, hieq, s_sq_eq_sSpec x n j (by omega),
        s_sq_eq_sSpec x n (j + 1) (by omega)]

/-! Claim C5: pivot selection. -/

theorem pivotAux_inv (γ : K) (H : ℕ → ℕ → K) (hγ : 0 < γ) :
    ∀ (fuel t : ℕ) (maxTerm : K) (m : ℤ),
      ((m = -1 ∧ maxTerm = 0 ∧ ∀ i, i < t → H i i = 0) ∨
        (∃ k : ℕ, m = (k : ℤ) ∧ k < t ∧ maxTerm = γ ^ (k + 1) * |H k k| ∧ 0 < maxTerm ∧
          (∀ i, i < t → γ ^ (i + 1) * |H i i| ≤ maxTerm) ∧
          (∀ i, i < k → γ ^ (i + 1) * |H i i| < maxTerm))) →
      ((pivotAux γ H fuel t (γ ^ (t + 1)) maxTerm m = -1 ∧
          ∀ i, i < t + fuel → H i i = 0) ∨
        (∃ k : ℕ, pivotAux γ H fuel t (γ ^ (t + 1)) maxTerm m = (k : ℤ) ∧ k < t + fuel ∧
          (∀ i, i < t + fuel → γ ^ (i + 1) * |H i i| ≤ γ ^ (k + 1) * |H k k|) ∧
          (∀ i, i < k → γ ^ (i + 1) * |H i i| < γ ^ (k + 1) * |H k k|))) := by
  intro fuel
  induction fuel with
  | zero =>
    intro t maxTerm m hinv
    rcases hinv with ⟨h1, _, h3⟩ | ⟨k, h1, h2, h3, _, h5, h6⟩
    · exact Or.inl ⟨h1, fun i hi => h3 i (by omega)⟩
    · refine Or.inr ⟨k, h1, by omega, fun i hi => ?_, fun i hi => ?_⟩
      · rw [← h3]; exact h5 i (by omega)
      · rw [← h3]; exact h6 i hi
  | succ f ih =>
    intro t maxTerm m hinv
    rw [pivotAux]
    have hγpow : (0 : K) < γ ^ (t + 1) := pow_pos hγ (t + 1)
    by_cases hcmp : maxTerm < γ ^ (t + 1) * |H t t|
    · rw [if_pos hcmp]
      have hterm : 0 < γ ^ (t + 1) * |H t t| := by
        rcases hinv with ⟨-, h2, -⟩ | ⟨k, -, -, -, h4, -, -⟩
        · rw [h2] at hcmp; exact hcmp
        · exact lt_trans h4 hcmp
      have harg : γ ^ (t + 1) * γ = γ ^ (t + 1 + 1) := by ring
      rw [harg]
      have hle : ∀ i, i < t → γ ^ (i + 1) * |H i i| ≤ maxTerm := by
        intro i hi
        rcases hinv with ⟨-, h2, h3⟩ | ⟨k, -, -, -, -, h5, -⟩
        · rw [h2, h3 i hi]
          simp
        · exact h5 i hi
      have hA : ∀ i, i < t + 1 → γ ^ (i + 1) * |H i i| ≤ γ ^ (t + 1) * |H t t| := by
        intro i hi
        rcases Nat.lt_succ_iff_lt_or_eq.mp hi with hi2 | rfl
        · exact le_of_lt (lt_of_le_of_lt (hle i hi2) hcmp)
        · exact le_rfl
      have hB : ∀ i, i < t → γ ^ (i + 1) * |H i i| < γ ^ (t + 1) * |H t t| :=
        fun i hi => lt_of_le_of_lt (hle i hi) hcmp
      have := ih (t + 1) (γ ^ (t + 1) * |H t t|) (t : ℤ)
        (Or.inr ⟨t, rfl, by omega, rfl, hterm, hA, hB⟩)
      rcases this with ⟨h1, h2⟩ | ⟨k, h1, h2, h3, h4⟩
      · exact Or.inl ⟨h1, fun i hi => h2 i (by omega)⟩
      · exact Or.inr ⟨k, h1, by omega, fun i hi => h3 i (by omega), h4⟩
    · rw [if_neg hcmp]
      have harg : γ ^ (t + 1) * γ = γ ^ (t + 1 + 1) := by ring
      rw [harg]
      have hnext :
          ((m = -1 ∧ maxTerm = 0 ∧ ∀ i, i < t + 1 → H i i = 0) ∨
            (∃ k : ℕ, m = (k : ℤ) ∧ k < t + 1 ∧ maxTerm = γ ^ (k + 1) * |H k k| ∧
              0 < maxTerm ∧ (∀ i, i < t + 1 → γ ^ (i + 1) * |H i i| ≤ maxTerm) ∧
              (∀ i, i < k → γ ^ (i + 1) * |H i i| < maxTerm))) := by
        rcases hinv with ⟨h1, h2, h3⟩ | ⟨k, h1, h2, h3, h4, h5, h6⟩
        · refine Or.inl ⟨h1, h2, fun i hi => ?_⟩
          rcases Nat.lt_succ_iff_lt_or_eq.mp hi with hi2 | rfl
          · exact h3 i hi2
          · rw [h2] at hcmp
            have habs : 0 ≤ γ ^ (i + 1) * |H i i| :=
              mul_nonneg (le_of_lt (pow_pos hγ (i + 1))) (abs_nonneg _)
            have hzero : γ ^ (i + 1) * |H i i| = 0 := le_antisymm (not_lt.mp hcmp) habs
            rcases mul_eq_zero.mp hzero with hz | hz
            · exact absurd hz (ne_of_gt (pow_pos hγ (i + 1)))
            · exact abs_eq_zero.mp hz
        · refine Or.inr ⟨k, h1, by omega, h3, h4, fun i hi => ?_, h6⟩
          rcases Nat.lt_succ_iff_lt_or_eq.mp hi with hi2 | rfl
          · exact h5 i hi2
          · exact not_lt.mp hcmp
      have := ih (t + 1) maxTerm m hnext
      rcases this with ⟨h1, h2⟩ | ⟨k, h1, h2, h3, h4⟩
      · exact Or.inl ⟨h1, fun i hi => h2 i (by omega)⟩
      · exact Or.inr ⟨k, h1, by omega, fun i hi => h3 i (by omega), h4⟩

/-- C5: the pivot index the scan of lines 366 to 387 selects is never
n - 1, and whenever some diagonal entry is nonzero (the failure guard
m = -1 is not taken) it is an index k between 0 and n - 2 whose weighted
diagonal gamma^(k+1) * abs(H(k,k)) is maximal, every strictly smaller
index carrying a strictly smaller weighted diagonal, so ties select the
lowest index. -/
theorem pslq_pivot_selection (γ : K) (n : ℕ) (H : ℕ → ℕ → K) (hn : 2 ≤ n) (hγ : 0 < γ) :
    selectPivot γ n H ≠ (n : ℤ) - 1 ∧
    ((∃ i, i < n - 1 ∧ H i i ≠ 0) →
      ∃ k : ℕ, selectPivot γ n H = (k : ℤ) ∧ k ≤ n - 2 ∧
        (∀ i, i < n - 1 → γ ^ (i + 1) * |H i i| ≤ γ ^ (k + 1) * |H k k|) ∧
        (∀ i, i < k → γ ^ (i + 1) * |H i i| < γ ^ (k + 1) * |H k k|)) := by
  have hpow : γ ^ (0 + 1) = γ := by norm_num
  have base := pivotAux_inv γ H hγ (n - 1) 0 0 (-1)
    (Or.inl ⟨rfl, rfl, fun i hi => absurd hi (by omega)⟩)
  rw [hpow] at base
  rw [selectPivot]
  rcases base with ⟨h1, h2⟩ | ⟨k, h1, h2, h3, h4⟩
  · constructor
    · rw [h1]
      intro hc
      omega
    · rintro ⟨i, hi, hnz⟩
      exact absurd (h2 i (by omega)) hnz
  · constructor
    · rw [h1]
      intro hc
      have : k = n - 1 := by omega
      omega
    · intro _
      exact ⟨k, h1, by omega, fun i hi => h3 i (by omega), h4⟩

theorem pslq_pivot_selection_witness :
    selectPivot (2 : ℚ) 2 Hw5 = 0 ∧ selectPivot (2 : ℚ) 2 Hw5 ≠ ((2 : ℕ) : ℤ) - 1 :=
  ⟨by decide, (pslq_pivot_selection (2 : ℚ) 2 Hw5 (by omega) (by norm_num)).1⟩

/-! Claim C3: the relation test, the residual warning, and the return
of the relation. -/

theorem filterMap_ite {α : Type} (c : ℕ → Prop) [DecidablePred c] (f : ℕ → α)
    (l : List ℕ) :
    (l.filterMap fun j => if c j then some (f j) else none) =
      (l.filter fun j => decide (c j)).map f := by
  induction l with
  | nil => rfl
  | cons a r ih =>
    by_cases h : c a
    · simp [List.filterMap_cons, List.filter_cons, h, ih]
    · simp [List.filterMap_cons, List.filter_cons, h, ih]

/-- C3: a relation is returned exactly when some entry of y falls below
the threshold obtained from epsilon at exponent 15/16; the vector
returned is the column of B at the first such index, paired with the
entries of x (restricted to nonzero integer coefficients); the large
residual flag is set exactly when the residual exceeds 16 times epsilon
times the absolute sum, and the relation is returned on the spot in
either case, the flag only adding a cerr message. -/
theorem pslq_relation_test (ops : RealOps K) (n : ℕ) (γ mn : K) (s : PState K) :
    ((checkRelation ops n s).isSome ↔
      ∃ i, i < n ∧ |s.y i| < ops.powr ops.eps (15 / 16)) ∧
    (∀ rel warn, checkRelation ops n s = some (rel, warn) →
      ∃ i, i < n ∧ |s.y i| < ops.powr ops.eps (15 / 16) ∧
        (∀ k, k < i → ¬ |s.y k| < ops.powr ops.eps (15 / 16)) ∧
        rel = ((List.range n).filter fun j => decide (s.B j i ≠ 0)).map
          (fun j => (s.B j i, s.x j)) ∧
        (warn = true ↔ 16 * ops.eps * (∑ j in Finset.range n, |(s.B j i : K) * s.x j|) <
          |∑ j in Finset.range n, (s.B j i : K) * s.x j|)) ∧
    (∀ s3 rel warn, roundStep ops n γ s = RoundResult.found s3 rel warn →
      checkRelation ops n s3 = some (rel, warn)) ∧
    (∀ s3, roundStep ops n γ s = RoundResult.next s3 → checkRelation ops n s3 = none) ∧
    (∀ fuel nb s3 rel warn, nb < mn → roundStep ops n γ s = RoundResult.found s3 rel warn →
      pslqLoop ops n γ mn (fuel + 1) nb s = ⟨rel, [Msg.endline],
        if warn then [Msg.largeResidual] else [], xlist n s3⟩) := by
  refine ⟨?_, ?_, ?_, ?_, ?_⟩
  · rcases hscan : scanIdx (fun i => decide (|s.y i| < ops.powr ops.eps (15 / 16))) n 0
      with - | i
    · have hnone := (scanIdx_eq_none _ n 0).mp hscan
      constructor
      · intro hc
        rw [checkRelation] at hc
        rw [hscan] at hc
        cases hc
      · rintro ⟨i, hi, hlt⟩
        have hk := hnone i (by omega) (by omega)
        rw [decide_eq_false_iff_not] at hk
        exact absurd hlt hk
    · have hsome := (scanIdx_eq_some _ n 0 i).mp hscan
      constructor
      · intro _
        exact ⟨i, by omega, of_decide_eq_true hsome.2.2.1⟩
      · intro _
        rw [checkRelation]
        rw [hscan]
        rfl
  · intro rel warn hsome2
    rw [checkRelation] at hsome2
    rcases hscan : scanIdx (fun i => decide (|s.y i| < ops.powr ops.eps (15 / 16))) n 0
      with - | i
    · rw [hscan] at hsome2
      cases hsome2
    · rw [hscan] at hsome2
      have hsome := (scanIdx_eq_some _ n 0 i).mp hscan
      dsimp only at hsome2
      injection hsome2 with hpair
      injection hpair with hrel hwarn
      refine ⟨i, by omega, of_decide_eq_true hsome.2.2.1, ?_, ?_, ?_⟩
      · intro k hk
        have hkf := hsome.2.2.2 k (by omega) hk
        rw [decide_eq_false_iff_not] at hkf
        exact hkf
      · rw [← hrel]
        exact filterMap_ite _ _ _
      · rw [← hwarn]
        rw [decide_eq_true_eq]
  · intro s3 rel warn hfound
    rw [roundStep] at hfound
    split at hfound
    · cases hfound
    · split at hfound
      · cases hfound
      · dsimp only at hfound
        split at hfound
        next heq =>
          injection hfound with e1 e2 e3
          subst e1
          subst e2
          subst e3
          exact heq
        next heq => cases hfound
  · intro s3 hnext
    rw [roundStep] at hnext
    split at hnext
    · cases hnext
    · split at hnext
      · cases hnext
      · dsimp only at hnext
        split at hnext
        next heq => cases hnext
        next heq =>
          injection hnext with e1
          subst e1
          exact heq
  · intro fuel nb s3 rel warn hnb hfound
    rw [pslqLoop, if_pos hnb, hfound]

theorem pslq_relation_test_witness :
    checkRelation opsQ 1 stW3 = some ([(1, 1)], true) ∧
    ((checkRelation opsQ 1 stW3).isSome ↔
      ∃ i, i < 1 ∧ |stW3.y i| < opsQ.powr opsQ.eps (15 / 16)) :=
  ⟨by decide, (pslq_relation_test opsQ 1 (8 / 3) 3 stW3).1⟩

/-! Claim C10: the argument vector x is never modified. -/

theorem reduceStep_x (ops : RealOps K) (i j : ℕ) (s : PState K) :
    (reduceStep ops i j s).x = s.x := by
  rw [reduceStep]
  split <;> rfl

theorem foldl_x {f : PState K → ℕ → PState K} (hf : ∀ s a, (f s a).x = s.x) :
    ∀ (l : List ℕ) (s : PState K), (l.foldl f s).x = s.x := by
  intro l
  induction l with
  | nil => intro s; rfl
  | cons a r ih =>
    intro s
    rw [List.foldl_cons, ih, hf]

theorem initReduce_x (ops : RealOps K) (n : ℕ) (s : PState K) :
    (initReduce ops n s).x = s.x :=
  foldl_x (fun s i => foldl_x (fun s' j => reduceStep_x ops i j s') _ s) _ s

theorem roundReduce_x (ops : RealOps K) (n m : ℕ) (s : PState K) :
    (roundReduce ops n m s).x = s.x :=
  foldl_x (fun s i => foldl_x (fun s' j => reduceStep_x ops i j s') _ s) _ s

theorem swapStep_x (m : ℕ) (s : PState K) : (swapStep m s).x = s.x := rfl

theorem cornerRemove_x (ops : RealOps K) (n m : ℕ) (s : PState K) :
    (cornerRemove ops n m s).x = s.x := rfl

theorem cornerStage_x (ops : RealOps K) (n m : ℕ) (s : PState K) :
    (cornerStage ops n m s).x = s.x := by
  rw [cornerStage]
  split <;> rfl

theorem roundStep_x (ops : RealOps K) (n : ℕ) (γ : K) (s : PState K) :
    (∀ s3 rel warn, roundStep ops n γ s = RoundResult.found s3 rel warn → s3.x = s.x) ∧
    (∀ s3, roundStep ops n γ s = RoundResult.next s3 → s3.x = s.x) := by
  have hx : ∀ m2 : ℕ,
      (roundReduce ops n m2 (cornerStage ops n m2 (swapStep m2 s))).x = s.x := by
    intro m2
    rw [roundReduce_x, cornerStage_x, swapStep_x]
  constructor
  · intro s3 rel warn hfound
    rw [roundStep] at hfound
    split at hfound
    · cases hfound
    · split at hfound
      · cases hfound
      · dsimp only at hfound
        split at hfound
        next heq =>
          injection hfound with e1 e2 e3
          subst e1
          exact hx _
        next => cases hfound
  · intro s3 hnext
    rw [roundStep] at hnext
    split at hnext
    · cases hnext
    · split at hnext
      · cases hnext
      · dsimp only at hnext
        split at hnext
        next => cases hnext
        next =>
          injection hnext with e1
          subst e1
          exact hx _

theorem pslqLoop_xfin (ops : RealOps K) (n : ℕ) (γ mn : K) :
    ∀ (fuel : ℕ) (nb : K) (s : PState K),
      (pslqLoop ops n γ mn fuel nb s).xfin = xlist n s := by
  intro fuel
  induction fuel with
  | zero => intro nb s; rfl
  | succ f ih =>
    intro nb s
    rw [pslqLoop]
    by_cases hnb : nb < mn
    · rw [if_pos hnb]
      rcases hr : roundStep ops n γ s with b | ⟨s3, rel, warn⟩ | s3
      · cases b <;> rfl
      · dsimp only
        have hx := (roundStep_x ops n γ s).1 s3 rel warn hr
        rw [xlist, xlist, hx]
      · dsimp only
        rw [ih]
        have hx := (roundStep_x ops n γ s).2 s3 hr
        rw [xlist, xlist, hx]
    · rw [if_neg hnb]

/-- C10: on every exit path, the validation rejections, the norm-bound
exit and the relation-found return alike, the final contents of the
argument vector x equal its initial contents; no step of the model
writes to x. -/
theorem pslq_x_unmodified (ops : RealOps K) (x : List K) (mn γ : K) (fuel : ℕ) :
    (pslq ops x mn γ fuel).xfin = x := by
  rw [pslq]
  split
  · rfl
  split
  · rfl
  split
  · rfl
  split
  · rfl
  split
  · rfl
  try dsimp only
  split
  · rfl
  split
  · rfl
  split
  · rfl
  split
  · rfl
  split
  · rfl
  try dsimp only
  rw [pslqLoop_xfin, xlist, initReduce_x]
  exact range_map_getD x 0

/-! Claim C8: the input validation. -/

/-- C8 counterexample: the input (3, 3) has two equal consecutive
entries, yet the sortedness check of line 209 accepts it, because
std::is_sorted tests non-decreasing order; the run is not rejected by
the sortedness check (with the concrete rational primitives it proceeds
past all the input validations and dies much later, at the Lemma 1.ii
self-check of line 286). -/
theorem pslq_sortedness_cex :
    is_sorted [(3 : ℚ), 3] = true ∧ ¬ strictlyIncreasing [(3 : ℚ), 3] ∧
    (pslq opsQ [(3 : ℚ), 3] 1 (8 / 3) 5).cerr = [Msg.lemmaTwo] := by
  refine ⟨by decide, ?_, by decide⟩
  intro hc
  rw [strictlyIncreasing, List.chain'_cons] at hc
  exact absurd hc.1 (by norm_num)

/-- Characterization of the sortedness check of line 209: it accepts
exactly the lists whose adjacent pairs are non-decreasing, so equal
consecutive entries pass it. -/
theorem is_sorted_iff : ∀ l : List K, is_sorted l = true ↔ l.Chain' (· ≤ ·)
  | [] => by
    rw [is_sorted]
    simp
  | [a] => by
    rw [is_sorted]
    simp
  | a :: b :: r => by
    rw [is_sorted, List.chain'_cons, Bool.and_eq_true, decide_eq_true_eq]
    exact and_congr Iff.rfl (is_sorted_iff (b :: r))

/-- C8 amended: the sortedness check accepts exactly the inputs sorted
in non-decreasing order, so an x with two equal consecutive entries is
not rejected by it; any input that fails it, any input of length below
two and any input containing a zero or negative entry is rejected
before the iteration starts, with the empty vector as result, exactly
one stderr diagnostic, nothing on stdout and x untouched. -/
theorem pslq_input_validation (ops : RealOps K) (x : List K) (mn γ : K) (fuel : ℕ)
    (hbad : is_sorted x = false ∨ x.length < 2 ∨ (∃ t ∈ x, t = 0) ∨ ∃ t ∈ x, t < 0) :
    (∀ l : List K, is_sorted l = true ↔ l.Chain' (· ≤ ·)) ∧
    (pslq ops x mn γ fuel).relation = [] ∧ (pslq ops x mn γ fuel).cout = [] ∧
    (pslq ops x mn γ fuel).cerr.length = 1 ∧ (pslq ops x mn γ fuel).xfin = x := by
  refine ⟨fun l => is_sorted_iff l, ?_⟩
  rw [pslq]
  split
  · exact ⟨rfl, rfl, rfl, rfl⟩
  next hsorted =>
    split
    · exact ⟨rfl, rfl, rfl, rfl⟩
    split
    · exact ⟨rfl, rfl, rfl, rfl⟩
    split
    · exact ⟨rfl, rfl, rfl, rfl⟩
    next hlen =>
      split
      · exact ⟨rfl, rfl, rfl, rfl⟩
      next hscan =>
        exfalso
        rcases hbad with h | h | h | h
        · exact hsorted h
        · exact hlen h
        · obtain ⟨t, ht, heq⟩ := h
          exact (scanZeroNeg_eq_none x hscan t ht).1 heq
        · obtain ⟨t, ht, hlt⟩ := h
          exact (scanZeroNeg_eq_none x hscan t ht).2 hlt

theorem pslq_input_validation_witness :
    ((is_sorted [(4 : ℚ), 3] = false ∨ List.length [(4 : ℚ), 3] < 2 ∨
        (∃ t ∈ [(4 : ℚ), 3], t = 0) ∨ ∃ t ∈ [(4 : ℚ), 3], t < 0) ∧
      (is_sorted [(3 : ℚ), 3] = true ↔ List.Chain' (· ≤ ·) [(3 : ℚ), 3]) ∧
      (pslq opsQ [(4 : ℚ), 3] 3 (8 / 3) 5).relation = [] ∧
      (pslq opsQ [(4 : ℚ), 3] 3 (8 / 3) 5).cout = [] ∧
      (pslq opsQ [(4 : ℚ), 3] 3 (8 / 3) 5).cerr.length = 1 ∧
      (pslq opsQ [(4 : ℚ), 3] 3 (8 / 3) 5).xfin = [4, 3]) := by
  have h := pslq_input_validation opsQ [(4 : ℚ), 3] 3 (8 / 3) 5 (Or.inl (by decide))
  exact ⟨Or.inl (by decide), h.1 [(3 : ℚ), 3], h.2.1, h.2.2.1, h.2.2.2.1, h.2.2.2.2⟩

/-! Claim C7: the return channel. -/

/-- C7 counterexample: a call on the unsorted input (4, 3) is rejected
before running, and a call on (3, 4) with norm bound 1 validates, runs
and stops at the norm bound without finding a relation; both return the
same empty vector, so the returned value does not distinguish the two,
and the core writes to the streams: the first call puts its diagnostic
on stderr, the second prints its progress on stdout. -/
theorem pslq_return_channel_cex :
    (pslq opsQ [(4 : ℚ), 3] 3 (8 / 3) 5).relation =
      (pslq opsQ [(3 : ℚ), 4] 1 (8 / 3) 5).relation ∧
    (pslq opsQ [(4 : ℚ), 3] 3 (8 / 3) 5).cerr = [Msg.notSorted] ∧
    (pslq opsQ [(3 : ℚ), 4] 1 (8 / 3) 5).cout = [Msg.expectedIter, Msg.endline] ∧
    (pslq opsQ [(3 : ℚ), 4] 1 (8 / 3) 5).cerr = [] :=
  ⟨by decide, by decide, by decide, by decide⟩

/-- C7 amended: the entry point returns a bare vector: reaching the loop
guard with the norm bound at or above the limit returns the empty
vector, with the closing newline on stdout, and a rejected input
returns the same empty vector with its diagnostic on stderr; the
returned value does not distinguish the two outcomes and diagnostics
are printed rather than returned. -/
theorem pslq_return_channel (ops : RealOps K) (n : ℕ) (γ mn : K) (fuel : ℕ) (nb : K)
    (s : PState K) (x : List K) (hnb : ¬ nb < mn) (hs : is_sorted x = false) :
    pslqLoop ops n γ mn (fuel + 1) nb s = ⟨[], [Msg.endline], [], xlist n s⟩ ∧
    pslq ops x mn γ fuel = ⟨[], [], [Msg.notSorted], x⟩ ∧
    (pslqLoop ops n γ mn (fuel + 1) nb s).relation = (pslq ops x mn γ fuel).relation := by
  have h1 : pslqLoop ops n γ mn (fuel + 1) nb s = ⟨[], [Msg.endline], [], xlist n s⟩ := by
    rw [pslqLoop, if_neg hnb]
  have h2 : pslq ops x mn γ fuel = ⟨[], [], [Msg.notSorted], x⟩ := by
    rw [pslq, if_pos hs]
  refine ⟨h1, h2, ?_⟩
  rw [h1, h2]

theorem pslq_return_channel_witness :
    pslqLoop opsQ 2 (8 / 3) 1 1 2 stW7 = ⟨[], [Msg.endline], [], xlist 2 stW7⟩ ∧
    pslq opsQ [(4 : ℚ), 3] 1 (8 / 3) 0 = ⟨[], [], [Msg.notSorted], [4, 3]⟩ ∧
    (pslqLoop opsQ 2 (8 / 3) 1 1 2 stW7).relation =
      (pslq opsQ [(4 : ℚ), 3] 1 (8 / 3) 0).relation :=
  pslq_return_channel opsQ 2 (8 / 3) 1 0 2 stW7 [4, 3] (by norm_num) (by decide)

/-! Claim C4: the precision guard. -/

/-- C4 counterexample: with epsilon 1/25 and x = (3, 4), the product
max_norm^2 times the squared norm equals 1/epsilon exactly, so it is
not strictly below 1/epsilon and the claim requires a rejection with
the recommended bound; the guard of line 250 tests strict excess
instead and lets the run proceed: nothing is written to stderr and the
run reaches the iteration stage. -/
theorem pslq_precision_guard_cex :
    ¬ ((1 : ℚ) * 1 * s_sq (fun i => [(3 : ℚ), 4].getD i 0) 2 0 < 1 / opsQ25.eps) ∧
    (pslq opsQ25 [(3 : ℚ), 4] 1 (8 / 3) 5).cerr = [] ∧
    (pslq opsQ25 [(3 : ℚ), 4] 1 (8 / 3) 5).cout = [Msg.expectedIter, Msg.endline] :=
  ⟨by decide, by decide, by decide⟩

/-- C4 amended: when the earlier validations pass, the guard rejects
exactly when max_norm^2 times the squared norm strictly exceeds
1/epsilon, and it then reports the maximum permissible norm bound
1 / sqrt(squared norm times epsilon) and returns before the iteration,
with nothing else printed. -/
theorem pslq_precision_guard (ops : RealOps K) (x : List K) (mn γ : K) (fuel : ℕ)
    (h1 : is_sorted x = true)
    (h2 : ¬ γ ≤ 2 / ops.sqrt 3)
    (h3 : ¬ (1 / ops.sqrt (1 / 4 + 1 / (γ * γ)) ≤ 1 ∨
      2 ≤ 1 / ops.sqrt (1 / 4 + 1 / (γ * γ))))
    (h4 : ¬ x.length < 2)
    (h5 : scanZeroNeg x = none)
    (h6 : 1 / ops.eps < mn * mn * s_sq (fun i => x.getD i 0) x.length 0) :
    pslq ops x mn γ fuel = ⟨[], [],
      [Msg.precision (1 / ops.sqrt (s_sq (fun i => x.getD i 0) x.length 0 * ops.eps))],
      x⟩ := by
  rw [pslq]
  rw [if_neg (by simp [h1]), if_neg h2, if_neg h3, if_neg h4, h5]
  dsimp only
  rw [if_pos h6]

theorem pslq_precision_guard_witness :
    pslq opsQ100 [(3 : ℚ), 4] 100 (8 / 3) 5 = ⟨[], [],
      [Msg.precision (1 / opsQ100.sqrt
        (s_sq (fun i => [(3 : ℚ), 4].getD i 0) (List.length [(3 : ℚ), 4]) 0 *
          opsQ100.eps))], [3, 4]⟩ ∧
    (1 : ℚ) / opsQ100.sqrt
      (s_sq (fun i => [(3 : ℚ), 4].getD i 0) (List.length [(3 : ℚ), 4]) 0 *
        opsQ100.eps) = 2 :=
  ⟨pslq_precision_guard opsQ100 [3, 4] 100 (8 / 3) 5 (by decide) (by decide) (by decide)
    (by decide) (by decide) (by decide), by decide⟩

/-! Claim C6: corner removal. -/

theorem pair_split {N a b : ℕ} (f : ℕ → K) (ha : a ∈ Finset.range N)
    (hb : b ∈ Finset.range N) (hab : a ≠ b) :
    ∑ j in Finset.range N, f j =
      f a + f b + ∑ j in ((Finset.range N).erase a).erase b, f j := by
  rw [← Finset.add_sum_erase _ f ha,
    ← Finset.add_sum_erase _ f (Finset.mem_erase.mpr ⟨Ne.symm hab, hb⟩)]
  ring

theorem rotation_pair (a b t0 x y : ℝ) (hkey : t0 * t0 = a * a + b * b)
    (ht0 : t0 ≠ 0) :
    (a / t0 * x + b / t0 * y) * (a / t0 * x + b / t0 * y) +
      (-(b / t0) * x + a / t0 * y) * (-(b / t0) * x + a / t0 * y) = x * x + y * y := by
  have hne : a * a + b * b ≠ 0 := hkey ▸ mul_ne_zero ht0 ht0
  have h : (a / t0 * x + b / t0 * y) * (a / t0 * x + b / t0 * y) +
      (-(b / t0) * x + a / t0 * y) * (-(b / t0) * x + a / t0 * y) =
      (a * a + b * b) / (t0 * t0) * (x * x + y * y) := by
    field_simp
    ring
  rw [h, hkey, div_self hne, one_mul]

/-- C6: the corner-removal rotation runs exactly when m is at most
n - 3 (for m = n - 2 the state is untouched); when it runs on the
post-swap state, whose rows above m vanish in columns m and m + 1,
whose only above-diagonal entry sits at (m, m + 1), and which satisfies
y * H = 0, it leaves every column product of y with H unchanged, leaves
the Frobenius norm of H unchanged, and restores the lower-trapezoidal
shape. -/
theorem pslq_corner_removal (ops : RealOps ℝ) (hsq : ops.sqrt = Real.sqrt) (n m : ℕ)
    (s : PState ℝ) (hm : m + 2 < n)
    (hnz : ¬ (s.H m m = 0 ∧ s.H m (m + 1) = 0))
    (hz : ∀ i, i < m → s.H i m = 0 ∧ s.H i (m + 1) = 0)
    (hyH : ∀ j, j < n - 1 → ∑ i in Finset.range n, s.y i * s.H i j = 0)
    (htz : ∀ i j, i < n → j < n - 1 → i < j → ¬ (i = m ∧ j = m + 1) → s.H i j = 0) :
    (∀ (m2 : ℕ) (s2 : PState ℝ),
      ((m2 : ℤ) ≤ (n : ℤ) - 3 → cornerStage ops n m2 s2 = cornerRemove ops n m2 s2) ∧
      (¬ (m2 : ℤ) ≤ (n : ℤ) - 3 → cornerStage ops n m2 s2 = s2)) ∧
    (∀ j, j < n - 1 →
      ∑ i in Finset.range n, s.y i * (cornerRemove ops n m s).H i j =
        ∑ i in Finset.range n, s.y i * s.H i j) ∧
    (∑ i in Finset.range n, ∑ j in Finset.range (n - 1),
        (cornerRemove ops n m s).H i j * (cornerRemove ops n m s).H i j =
      ∑ i in Finset.range n, ∑ j in Finset.range (n - 1), s.H i j * s.H i j) ∧
    (∀ i j, i < n → j < n - 1 → i < j → (cornerRemove ops n m s).H i j = 0) := by
  have hab : 0 < s.H m m * s.H m m + s.H m (m + 1) * s.H m (m + 1) := by
    rcases not_and_or.mp hnz with h | h
    · nlinarith [mul_self_pos.mpr h, mul_self_nonneg (s.H m (m + 1))]
    · nlinarith [mul_self_pos.mpr h, mul_self_nonneg (s.H m m)]
  set t0 := ops.sqrt (s.H m m * s.H m m + s.H m (m + 1) * s.H m (m + 1)) with ht0def
  have ht0 : 0 < t0 := by
    rw [ht0def, hsq]
    exact Real.sqrt_pos.mpr hab
  have ht0ne : t0 ≠ 0 := ne_of_gt ht0
  have hkey : t0 * t0 = s.H m m * s.H m m + s.H m (m + 1) * s.H m (m + 1) := by
    rw [ht0def, hsq]
    exact Real.mul_self_sqrt (le_of_lt hab)
  have hmne : ¬ (m + 1 = m) := by omega
  have eqH : ∀ p q, (cornerRemove ops n m s).H p q =
      (if m ≤ p ∧ p < n ∧ q = m then
        s.H m m / t0 * s.H p m + s.H m (m + 1) / t0 * s.H p (m + 1)
      else if m ≤ p ∧ p < n ∧ q = m + 1 then
        -(s.H m (m + 1) / t0) * s.H p m + s.H m m / t0 * s.H p (m + 1)
      else s.H p q) := fun p q => rfl
  have eq1 : ∀ p, p < n → (cornerRemove ops n m s).H p m =
      s.H m m / t0 * s.H p m + s.H m (m + 1) / t0 * s.H p (m + 1) := by
    intro p hp
    rw [eqH]
    by_cases hpm : m ≤ p
    · rw [if_pos ⟨hpm, hp, rfl⟩]
    · rw [if_neg (fun hc => hpm hc.1), if_neg (fun hc => hpm hc.1)]
      rw [(hz p (by omega)).1, (hz p (by omega)).2]
      ring
  have eq2 : ∀ p, p < n → (cornerRemove ops n m s).H p (m + 1) =
      -(s.H m (m + 1) / t0) * s.H p m + s.H m m / t0 * s.H p (m + 1) := by
    intro p hp
    rw [eqH]
    by_cases hpm : m ≤ p
    · rw [if_neg (fun hc => hmne hc.2.2), if_pos ⟨hpm, hp, rfl⟩]
    · rw [if_neg (fun hc => hpm hc.1), if_neg (fun hc => hpm hc.1)]
      rw [(hz p (by omega)).1, (hz p (by omega)).2]
      ring
  have eq3 : ∀ p q, q ≠ m → q ≠ m + 1 → (cornerRemove ops n m s).H p q = s.H p q := by
    intro p q hq1 hq2
    rw [eqH]
    rw [if_neg (fun hc => hq1 hc.2.2), if_neg (fun hc => hq2 hc.2.2)]
  refine ⟨fun m2 s2 => ⟨fun hle => ?_, fun hgt => ?_⟩, ?_, ?_, ?_⟩
  · rw [cornerStage, if_pos (by omega)]
  · rw [cornerStage, if_neg (by omega)]
  · intro j hj
    by_cases hjm : j = m
    · rw [hjm]
      have e : ∑ i in Finset.range n, s.y i * (cornerRemove ops n m s).H i m =
          s.H m m / t0 * (∑ i in Finset.range n, s.y i * s.H i m) +
            s.H m (m + 1) / t0 * (∑ i in Finset.range n, s.y i * s.H i (m + 1)) := by
        rw [Finset.mul_sum, Finset.mul_sum, ← Finset.sum_add_distrib]
        refine Finset.sum_congr rfl fun i hi => ?_
        rw [eq1 i (Finset.mem_range.mp hi)]
        ring
      rw [e, hyH m (by omega), hyH (m + 1) (by omega)]
      ring
    · by_cases hjm1 : j = m + 1
      · rw [hjm1]
        have e : ∑ i in Finset.range n, s.y i * (cornerRemove ops n m s).H i (m + 1) =
            -(s.H m (m + 1) / t0) * (∑ i in Finset.range n, s.y i * s.H i m) +
              s.H m m / t0 * (∑ i in Finset.range n, s.y i * s.H i (m + 1)) := by
          rw [Finset.mul_sum, Finset.mul_sum, ← Finset.sum_add_distrib]
          refine Finset.sum_congr rfl fun i hi => ?_
          rw [eq2 i (Finset.mem_range.mp hi)]
          ring
        rw [e, hyH m (by omega), hyH (m + 1) (by omega)]
        ring
      · refine Finset.sum_congr rfl fun i _ => ?_
        rw [eq3 i j hjm hjm1]
  · refine Finset.sum_congr rfl fun i hi => ?_
    have hi2 := Finset.mem_range.mp hi
    have hm1 : m ∈ Finset.range (n - 1) := Finset.mem_range.mpr (by omega)
    have hm2 : m + 1 ∈ Finset.range (n - 1) := Finset.mem_range.mpr (by omega)
    rw [pair_split (fun j => (cornerRemove ops n m s).H i j * (cornerRemove ops n m s).H i j)
      hm1 hm2 (by omega)]
    rw [pair_split (fun j => s.H i j * s.H i j) hm1 hm2 (by omega)]
    have herased :
        ∑ j in ((Finset.range (n - 1)).erase m).erase (m + 1),
          (cornerRemove ops n m s).H i j * (cornerRemove ops n m s).H i j =
        ∑ j in ((Finset.range (n - 1)).erase m).erase (m + 1), s.H i j * s.H i j := by
      refine Finset.sum_congr rfl fun j hj => ?_
      have hj1 : j ≠ m + 1 := (Finset.mem_erase.mp hj).1
      have hj2 : j ≠ m := (Finset.mem_erase.mp (Finset.mem_erase.mp hj).2).1
      rw [eq3 i j hj2 hj1]
    rw [herased, eq1 i hi2, eq2 i hi2,
      rotation_pair (s.H m m) (s.H m (m + 1)) t0 (s.H i m) (s.H i (m + 1)) hkey ht0ne]
  · intro i j hi hj hij
    by_cases hjm : j = m
    · rw [hjm]
      rw [eq1 i hi, htz i m hi (by omega) (by omega) (by omega),
        htz i (m + 1) hi (by omega) (by omega) (by omega)]
      ring
    · by_cases hjm1 : j = m + 1
      · rw [hjm1]
        by_cases him : i = m
        · rw [him]
          rw [eq2 m (by omega)]
          ring
        · rw [eq2 i hi, (hz i (by omega)).1, (hz i (by omega)).2]
          ring
      · rw [eq3 i j hjm hjm1]
        exact htz i j hi hj hij (by omega)

theorem pslq_corner_removal_witness :
    (cornerRemove (⟨Real.sqrt, fun _ => 0, 0, fun a _ => a, fun _ _ => false⟩ : RealOps ℝ)
      3 0 stW6).H 0 1 = 0 :=
  (pslq_corner_removal _ rfl 3 0 stW6 (by omega)
    (by norm_num [stW6, Hw6])
    (fun i hi => absurd hi (by omega))
    (by
      intro j hj
      simp [stW6])
    (by
      intro i j hi hj hij hne
      exact absurd (by omega : i = 0 ∧ j = 1) hne)).2.2.2 0 1 (by omega) (by omega)
    (by omega)

theorem pslq_initial_construction_witness :
    Hinit opsQ (fun i => [(3 : ℚ), 4].getD i 0) 2 1 0 =
      Hspec opsQ (fun i => [(3 : ℚ), 4].getD i 0) 2 1 0 ∧
    Hinit opsQ (fun i => [(3 : ℚ), 4].getD i 0) 2 1 0 = -3 / 5 := by
  refine ⟨(pslq_initial_construction opsQ _ 2 le_rfl).2.2 1 0 (by omega) (by omega), ?_⟩
  decide

end PslqModel
